import Mathlib

/-!
Shallow embedding of the selective forward HTTP proxy engine
(src/app.rs together with the error taxonomy of src/error.rs).

Byte strings and unicode text are both modelled as lists of natural
numbers (byte values, respectively unicode scalar values), so that every
definition is executable and every concrete run can be settled by kernel
evaluation.  Socket addresses are opaque tokens (naturals).  The outcome
of every socket operation performed by a state handler is supplied
through an explicit oracle record, mirroring the non-blocking calls the
Rust code makes; would-block and the other error kinds are constructors
of an explicit error-kind type.
-/

deriving instance DecidableEq for Except

/-- Unicode/byte strings of the model: lists of code values. -/
abbrev Str := List Nat

/-- Socket addresses are opaque tokens. -/
abbrev SockAddr := Nat

/-- Bytes of a Rust string literal / the scalar values of its chars. -/
def strBytes (s : String) : Str := s.data.map Char.toNat

/-- The io::ErrorKind values the engine distinguishes, plus a generic
constructor for all remaining kinds. -/
inductive ErrorKind where
  | wouldBlock
  | notConnected
  | invalidInput
  | connectionReset
  | otherErr
  deriving DecidableEq, Repr

/-- ConnError from src/error.rs (lines 100-108). -/
inductive ConnError where
  | notHttp
  | parseError
  | dnsError
  | unknown
  | ioError (k : ErrorKind)
  deriving DecidableEq, Repr

/-- Connection states, src/app.rs lines 192-198. -/
inductive State where
  | init
  | conn
  | send
  | recv
  | done
  deriving DecidableEq, Repr

/-- Position of a state in the fixed progression Init -> Conn -> Send ->
Recv -> Done. -/
def rank : State → Nat
  | .init => 0
  | .conn => 1
  | .send => 2
  | .recv => 3
  | .done => 4

/-- The successor of a state in the fixed progression (Done is terminal). -/
def nextState : State → State
  | .init => .conn
  | .conn => .send
  | .send => .recv
  | .recv => .done
  | .done => .done

/-- BUFFER_SIZE, src/app.rs line 21. -/
def BUFFER_SIZE : Nat := 4096

/-- The literal request sentinel b"GET", src/app.rs line 22. -/
def GETbytes : Str := strBytes "GET"

/-- HOST_HEADER, src/app.rs line 23. -/
def HOST_HEADER : Str := strBytes "host:"

/-- Is a byte a UTF-8 continuation byte (0x80-0xBF)? -/
def isCont (b : Nat) : Bool := 0x80 ≤ b && b ≤ 0xBF

/-- Admissible second byte of a three-byte UTF-8 sequence headed by b
(excludes overlong encodings and surrogates, as str::from_utf8 does). -/
def cont3ok (b b2 : Nat) : Bool :=
  if b = 0xE0 then 0xA0 ≤ b2 && b2 ≤ 0xBF
  else if b = 0xED then 0x80 ≤ b2 && b2 ≤ 0x9F
  else isCont b2

/-- Admissible second byte of a four-byte UTF-8 sequence headed by b
(excludes overlong encodings and values beyond U+10FFFF). -/
def cont4ok (b b2 : Nat) : Bool :=
  if b = 0xF0 then 0x90 ≤ b2 && b2 ≤ 0xBF
  else if b = 0xF4 then 0x80 ≤ b2 && b2 ≤ 0x8F
  else isCont b2

/-- UTF-8 decoding of a byte list into unicode scalar values; returns
none exactly when str::from_utf8 would report a Utf8Error. -/
def utf8Decode : List Nat → Option Str
  | [] => some []
  | b :: l =>
    if b < 0x80 then
      (utf8Decode l).map (b :: ·)
    else if 0xC2 ≤ b && b ≤ 0xDF then
      match l with
      | b2 :: l2 =>
        if isCont b2 then
          (utf8Decode l2).map (((b - 0xC0) * 0x40 + (b2 - 0x80)) :: ·)
        else none
      | [] => none
    else if 0xE0 ≤ b && b ≤ 0xEF then
      match l with
      | b2 :: b3 :: l3 =>
        if cont3ok b b2 && isCont b3 then
          (utf8Decode l3).map
            (((b - 0xE0) * 0x1000 + (b2 - 0x80) * 0x40 + (b3 - 0x80)) :: ·)
        else none
      | _ => none
    else if 0xF0 ≤ b && b ≤ 0xF4 then
      match l with
      | b2 :: b3 :: b4 :: l4 =>
        if cont4ok b b2 && isCont b3 && isCont b4 then
          (utf8Decode l4).map
            (((b - 0xF0) * 0x40000 + (b2 - 0x80) * 0x1000 +
              (b3 - 0x80) * 0x40 + (b4 - 0x80)) :: ·)
        else none
      | _ => none
    else none

/-- u8::make_ascii_lowercase on a code value. -/
def lowerNat (c : Nat) : Nat := if 65 ≤ c && c ≤ 90 then c + 32 else c

/-- char::is_whitespace (the White_Space property used by str::trim). -/
def isWs (c : Nat) : Bool :=
  c = 9 || c = 10 || c = 11 || c = 12 || c = 13 || c = 32 ||
  c = 0x85 || c = 0xA0 || c = 0x1680 || (0x2000 ≤ c && c ≤ 0x200A) ||
  c = 0x2028 || c = 0x2029 || c = 0x202F || c = 0x205F || c = 0x3000

/-- str::trim_start. -/
def trimStart (s : Str) : Str := s.dropWhile isWs

/-- str::trim_end. -/
def trimEnd (s : Str) : Str := (s.reverse.dropWhile isWs).reverse

/-- str::trim. -/
def trim (s : Str) : Str := trimEnd (trimStart s)

/-- Split a string at every newline character (the split underlying
str::lines); always returns at least one piece. -/
def splitNl : Str → List Str
  | [] => [[]]
  | c :: rest =>
    if c = 10 then [] :: splitNl rest
    else
      match splitNl rest with
      | [] => [[c]]
      | p :: ps => (c :: p) :: ps

/-- Remove one trailing carriage return, as str::lines does to every
piece that was terminated by a newline. -/
def stripCr (s : Str) : Str :=
  match s.getLast? with
  | some 13 => s.dropLast
  | _ => s

/-- str::lines: newline-separated pieces, a carriage return immediately
before a newline is stripped, a final empty piece is not reported. -/
def linesOf (s : Str) : List Str :=
  let ps := splitNl s
  ps.dropLast.map stripCr ++
    (match ps.getLast? with
     | some [] => []
     | some p => [p]
     | none => [])

/-- str::starts_with for string patterns. -/
def startsWithStr : Str → Str → Bool
  | [], _ => true
  | _ :: _, [] => false
  | p :: ps, c :: cs => p = c && startsWithStr ps cs

/-- str::contains for string patterns (substring search). -/
def hasSub (p : Str) : Str → Bool
  | [] => startsWithStr p []
  | c :: rest => startsWithStr p (c :: rest) || hasSub p rest

/-- Connection::check_http, src/app.rs lines 234-236: strictly more
bytes than the GET sentinel must be present and the first three bytes
must be that sentinel. -/
def check_http (data : Str) : Bool :=
  decide (data.length > GETbytes.length) && data.take GETbytes.length == GETbytes

/-- The Host-header extraction applied to the already lowercased request
head, src/app.rs lines 243-251: the first line whose start (after
trimming leading whitespace) is "host:" yields its remainder, trimmed. -/
def hostValue (content : Str) : Option Str :=
  (((linesOf content).map trimStart).find? (fun s => startsWithStr HOST_HEADER s)).map
    (fun s => trim (s.drop HOST_HEADER.length))

/-- The request head is ASCII-lowercased in place (content.make_ascii_lowercase,
src/app.rs line 241) and then searched for the Host header. -/
def hostOfChars (content : Str) : Option Str :=
  hostValue (content.map lowerNat)

/-- The host extraction of Connection::resolve on the raw peeked bytes:
UTF-8 decoding (a Utf8Error becomes ParseError via the From impl of
src/error.rs lines 125-129), then lowercasing and header search; a
missing header is ParseError (src/app.rs line 250). -/
def hostOfBytes (data : Str) : Except ConnError Str :=
  match utf8Decode data with
  | none => .error .parseError
  | some content =>
    match hostOfChars content with
    | none => .error .parseError
    | some host => .ok host

/-- The shared resolution cache, a HashMap from host key to address
(src/app.rs line 353), modelled as an association list whose lookup
finds the most recent insertion. -/
abbrev DnsCache := List (Str × SockAddr)

/-- The system resolution call (ToSocketAddrs): given the query string
and the optional default port, none models Err and some the address
list. -/
abbrev SysResolver := Str × Option Nat → Option (List SockAddr)

/-- The query Dns::resolve hands to the system resolver, src/app.rs
lines 371-377: a value with a port suffix passes through unchanged, any
other value is paired with default port 80. -/
def portQuery (host : Str) : Str × Option Nat :=
  let v6 := host.head? == some 91
  if (v6 && hasSub (strBytes "]:") host) || (!v6 && host.contains 58) then
    (host, none)
  else
    (host, some 80)

/-- Dns::resolve, src/app.rs lines 366-388: cache hit short-circuits;
on a miss the system resolver is invoked with the port-detected query,
a failed or empty resolution is DnsError and inserts nothing, the first
resolved address is cached and returned.  The final component records
whether the system resolver was invoked (the lock is modelled as never
poisoned). -/
def Dns.resolve (sys : SysResolver) (cache : DnsCache) (host : Str) :
    (Except ConnError SockAddr) × DnsCache × Bool :=
  match cache.lookup host with
  | some cached => (.ok cached, cache, false)
  | none =>
    match sys (portQuery host) with
    | none => (.error .dnsError, cache, true)
    | some resolved =>
      match resolved with
      | [] => (.error .dnsError, cache, true)
      | addr :: _ => (.ok addr, (host, addr) :: cache, true)

/-- The immutable configuration the engine consumes: upstream proxy
address and configured host set (src/app.rs lines 27-32; the host set is
a HashSet, modelled as a list queried by contains). -/
structure App where
  proxy : SockAddr
  hosts : List Str
  deriving DecidableEq, Repr

/-- Connection::resolve, src/app.rs lines 238-266: parse the (lowercased)
Host value from the peeked bytes; a value in the configured host set is
routed to the configured upstream proxy (PROXY), any other value is
resolved through the DNS cache (DIRECT).  Returns the routing result,
the possibly updated cache and whether system resolution was invoked. -/
def Connection.resolve (app : App) (sys : SysResolver) (cache : DnsCache)
    (data : Str) : (Except ConnError SockAddr) × DnsCache × Bool :=
  match hostOfBytes data with
  | .error e => (.error e, cache, false)
  | .ok host =>
    if app.hosts.contains host then (.ok app.proxy, cache, false)
    else Dns.resolve sys cache host

/-- One connection: its state and the optional upstream socket, the
latter modelled by the address it was connected towards (src/app.rs
lines 185-190; the client socket itself is externalised into the
oracle). -/
structure Conn where
  state : State
  server : Option SockAddr
  deriving DecidableEq, Repr

/-- Outcomes of the non-blocking socket calls a single state-machine
step may perform.  Err models a failing call with the given kind; for
peeks and reads Ok carries the bytes obtained. -/
structure NetOracle where
  clientPeek : Except ErrorKind Str
  connectRes : Except ErrorKind Unit
  peerAddr : Except ErrorKind Unit
  nodelay : Except ErrorKind Unit
  clientRead : Except ErrorKind Str
  serverWrite : Except ErrorKind Unit
  clientPeek1 : Except ErrorKind Nat
  serverRead : Except ErrorKind Str
  clientWrite : Except ErrorKind Unit

/-- Connection::init, src/app.rs lines 215-232: a failing peek (of any
kind) reports would-block; peeked data failing check_http is NotHttp;
otherwise the routing decision is applied and a non-blocking connect is
begun, on success the upstream socket is stored and the state becomes
Conn. -/
def initStep (app : App) (sys : SysResolver) (io : NetOracle) (c : Conn)
    (cache : DnsCache) : (Except ConnError Bool) × Conn × DnsCache :=
  match io.clientPeek with
  | .error _ => (.ok false, c, cache)
  | .ok data =>
    if !check_http data then (.error .notHttp, c, cache)
    else
      match Connection.resolve app sys cache data with
      | (.error e, cache2, _) => (.error e, c, cache2)
      | (.ok addr, cache2, _) =>
        match io.connectRes with
        | .error e => (.error (.ioError e), c, cache2)
        | .ok _ => (.ok true, { c with state := .conn, server := some addr }, cache2)

/-- Connection::connect, src/app.rs lines 268-289: a missing upstream
socket is Unknown; peer_addr failing with NotConnected or WouldBlock
stays, any other failure is an I/O error; set_nodelay failing with
InvalidInput stays, any other failure is an I/O error; otherwise the
state becomes Send. -/
def connStep (io : NetOracle) (c : Conn) : (Except ConnError Bool) × Conn :=
  match c.server with
  | none => (.error .unknown, c)
  | some _ =>
    match io.peerAddr with
    | .error e =>
      if e = .notConnected || e = .wouldBlock then (.ok false, c)
      else (.error (.ioError e), c)
    | .ok _ =>
      match io.nodelay with
      | .error e =>
        if e = .invalidInput then (.ok false, c)
        else (.error (.ioError e), c)
      | .ok _ => (.ok true, { c with state := .send })

/-- Connection::send, src/app.rs lines 291-314: a failing client read
(of any kind) reports would-block; zero bytes moves to Recv; otherwise
the bytes are written in full to the upstream socket (a write failure is
an I/O error) and a read shorter than the buffer moves to Recv. -/
def sendStep (io : NetOracle) (c : Conn) : (Except ConnError Bool) × Conn :=
  match io.clientRead with
  | .error _ => (.ok false, c)
  | .ok data =>
    if data.length = 0 then (.ok true, { c with state := .recv })
    else
      match c.server with
      | none => (.error .unknown, c)
      | some _ =>
        match io.serverWrite with
        | .error e => (.error (.ioError e), c)
        | .ok _ =>
          if data.length < BUFFER_SIZE then (.ok true, { c with state := .recv })
          else (.ok true, c)

/-- Connection::recv, src/app.rs lines 316-342: a missing upstream
socket is Unknown; a one-byte client peek reporting zero bytes or any
error other than would-block finishes the session (Done); a failing
upstream read reports would-block; zero bytes from upstream is Done;
otherwise all read bytes are written in full to the client (a write
failure is an I/O error) and the state stays Recv.  The last component
is the list of bytes written to the client during the step. -/
def recvStep (io : NetOracle) (c : Conn) :
    (Except ConnError Bool) × Conn × Str :=
  match c.server with
  | none => (.error .unknown, c, [])
  | some _ =>
    let finished : Bool :=
      match io.clientPeek1 with
      | .ok n => n == 0
      | .error e => !(e == .wouldBlock)
    if finished then
      (.ok true, { c with state := .done }, [])
    else
      match io.serverRead with
      | .error _ => (.ok false, c, [])
      | .ok data =>
        if data.length = 0 then (.ok true, { c with state := .done }, [])
        else
          match io.clientWrite with
          | .error e => (.error (.ioError e), c, [])
          | .ok _ => (.ok true, c, data)

/-- One dispatch of Connection::progress, src/app.rs lines 200-213: the
handler of the current state runs once; in state Done the step reports
finished. -/
def stepConn (app : App) (sys : SysResolver) (io : NetOracle) (c : Conn)
    (cache : DnsCache) : (Except ConnError Bool) × Conn × DnsCache :=
  match c.state with
  | .init => initStep app sys io c cache
  | .conn => ((connStep io c).1, (connStep io c).2, cache)
  | .send => ((sendStep io c).1, (sendStep io c).2, cache)
  | .recv => ((recvStep io c).1, (recvStep io c).2.1, cache)
  | .done => (.ok true, c, cache)

/-- A sequence of state-machine steps, one oracle per step. -/
def runSteps (app : App) (sys : SysResolver) :
    List NetOracle → Conn × DnsCache → Conn × DnsCache
  | [], p => p
  | io :: rest, p => runSteps app sys rest (stepConn app sys io p.1 p.2).2

/-- Worker::handle_connections removal loop, src/app.rs lines 146-179:
starting at the given index, every connection is stepped once; the
outcome is abstracted by the predicate f (true when progress reported
finished, including the error case); a finished connection is removed by
popping the last element and swapping it into the current slot, which is
then revisited; otherwise the index advances. -/
def handleFrom (f : α → Bool) (conns : List α) (index : Nat) : List α :=
  if h : index < conns.length then
    if !f (conns.get ⟨index, h⟩) then
      handleFrom f conns (index + 1)
    else
      match conns.getLast? with
      | none => conns
      | some last =>
        if index ≥ conns.dropLast.length then conns.dropLast
        else handleFrom f (conns.dropLast.set index last) index
  else conns
termination_by conns.length - index
decreasing_by
  · omega
  · simp [List.length_set, List.length_dropLast]
    omega

/-- One pass of the worker removal loop over its whole collection. -/
def handlePass (f : α → Bool) (conns : List α) : List α := handleFrom f conns 0

/-- The Host-header extraction in the words of the specification: the
value of the first line that, after trimming leading whitespace and
lowercasing, begins with "host:", with the value whitespace-trimmed.
Stated for comparison with hostOfChars, which lowercases the whole head
first as the code does. -/
def specHostValue (content : Str) : Option Str :=
  ((linesOf content).find?
      (fun l => startsWithStr HOST_HEADER ((trimStart l).map lowerNat))).map
    (fun l => trim (((trimStart l).map lowerNat).drop HOST_HEADER.length))

/-- The port-suffix condition in the words of the specification: a colon
somewhere in a non-bracketed value, or a closing-bracket-colon pair in a
value with a leading opening bracket.  Stated for comparison with the
condition portQuery tests. -/
def specPortCond (host : Str) : Prop :=
  (host.head? = some 91 ∧ ∃ pre suf, host = pre ++ strBytes "]:" ++ suf) ∨
  (¬host.head? = some 91 ∧ 58 ∈ host)

/-- A fixed all-successful oracle used to pin concrete runs. -/
def okOracle : NetOracle where
  clientPeek := .ok []
  connectRes := .ok ()
  peerAddr := .ok ()
  nodelay := .ok ()
  clientRead := .ok []
  serverWrite := .ok ()
  clientPeek1 := .ok 1
  serverRead := .ok []
  clientWrite := .ok ()

/-- A fixed system resolver used to pin concrete runs. -/
def oneAddrSys : SysResolver := fun _ => some [5]

theorem handleFrom_perm (f : α → Bool) (conns : List α) (index : Nat) :
    (handleFrom f conns index).Perm
      (conns.take index ++ (conns.drop index).filter (fun c => !f c)) := by
  rw [handleFrom]
  split
  · rename_i hlt
    split
    · rename_i hnf
      have hc : conns[index]? = some conns[index] := List.getElem?_eq_getElem hlt
      have hdrop : conns.drop index = conns[index] :: conns.drop (index + 1) :=
        List.drop_eq_getElem_cons hlt
      have hkeep : (!f conns[index]) = true := by simpa using hnf
      have ih := handleFrom_perm f conns (index + 1)
      have heq : conns.take index ++ (conns.drop index).filter (fun c => !f c)
          = conns.take (index + 1) ++ (conns.drop (index + 1)).filter (fun c => !f c) := by
        rw [hdrop, List.filter_cons_of_pos (p := fun c => !f c) hkeep, List.take_succ, hc]
        simp only [Option.toList_some, List.append_assoc, List.singleton_append]
      rw [heq]
      exact ih
    · rename_i hnf
      have hfc : f conns[index] = true := by simpa using hnf
      split
      · rename_i hnone
        rw [List.getLast?_eq_none_iff] at hnone
        subst hnone
        simp at hlt
      · rename_i last hlast
        split
        · rename_i hge
          have hdl := conns.length_dropLast
          have hidx : index = conns.length - 1 := by omega
          have hdrop : conns.drop index = [conns[index]] := by
            rw [List.drop_eq_getElem_cons hlt, List.drop_eq_nil_of_le (by omega)]
          rw [hdrop, List.filter_cons_of_neg (by simp [hfc]), List.filter_nil,
            List.append_nil, hidx, ← List.dropLast_eq_take]
        · rename_i hge
          have hpl : index < conns.dropLast.length := by omega
          have hmem : last ∈ conns.getLast? := by rw [hlast]; rfl
          have happ : conns.dropLast ++ [last] = conns :=
            List.dropLast_append_getLast? last hmem
          have hset : conns.dropLast.set index last
              = conns.dropLast.take index ++ last :: conns.dropLast.drop (index + 1) :=
            List.set_eq_take_cons_drop last hpl
          have hlen : (conns.dropLast.take index).length = index := by
            simp [List.length_take]
            omega
          have htake2 : (conns.dropLast.set index last).take index
              = conns.dropLast.take index := by
            rw [hset]
            exact List.take_left' hlen
          have hdrop2 : (conns.dropLast.set index last).drop index
              = last :: conns.dropLast.drop (index + 1) := by
            rw [hset]
            exact List.drop_left' hlen
          have htake1 : conns.take index = conns.dropLast.take index := by
            conv_lhs => rw [← happ]
            exact List.take_append_of_le_length (Nat.le_of_lt hpl)
          have hdrop1 : conns.drop (index + 1)
              = conns.dropLast.drop (index + 1) ++ [last] := by
            conv_lhs => rw [← happ]
            exact List.drop_append_of_le_length (by omega)
          have hdropc : conns.drop index = conns[index] :: conns.drop (index + 1) :=
            List.drop_eq_getElem_cons hlt
          have ih := handleFrom_perm f (conns.dropLast.set index last) index
          rw [htake2, hdrop2] at ih
          rw [hdropc, List.filter_cons_of_neg (by simp [hfc]), hdrop1, htake1,
            List.filter_append]
          refine ih.trans (List.Perm.append_left _ ?_)
          rw [← List.singleton_append, List.filter_append]
          exact List.perm_append_comm
  · rename_i hge
    have h1 : conns.take index = conns := List.take_of_length_le (by omega)
    have h2 : conns.drop index = [] := List.drop_eq_nil_of_le (by omega)
    rw [h1, h2, List.filter_nil, List.append_nil]
termination_by conns.length - index
decreasing_by
  all_goals first
  | omega
  | (rw [List.length_set, List.length_dropLast]; omega)

/-- C6: after one pass of the worker removal loop, the live collection
is, as a multiset, exactly the connections whose step did not report
finished: none is dropped, none is duplicated, every finished one is
removed by the swap-with-last-and-pop scheme. -/
theorem worker_swap_remove_exact (f : α → Bool) (conns : List α) :
    (handlePass f conns).Perm (conns.filter (fun c => !f c)) := by
  have h := handleFrom_perm f conns 0
  simpa [handlePass] using h

theorem lowerNat_small {c t : Nat} (ht : t < 65) : lowerNat c = t ↔ c = t := by
  unfold lowerNat
  split
  · rename_i h
    simp only [Bool.and_eq_true, decide_eq_true_eq] at h
    omega
  · exact Iff.rfl

theorem isWs_lowerNat (c : Nat) : isWs (lowerNat c) = isWs c := by
  unfold lowerNat
  split
  · rename_i h
    simp only [Bool.and_eq_true, decide_eq_true_eq] at h
    obtain ⟨h1, h2⟩ := h
    interval_cases c <;> decide
  · rfl

theorem trimStart_map (l : Str) :
    trimStart (l.map lowerNat) = (trimStart l).map lowerNat := by
  unfold trimStart
  rw [List.dropWhile_map]
  have : (isWs ∘ lowerNat) = isWs := funext isWs_lowerNat
  rw [this]

theorem splitNl_map (s : Str) :
    splitNl (s.map lowerNat) = (splitNl s).map (List.map lowerNat) := by
  induction s with
  | nil => rfl
  | cons c rest ih =>
    rw [List.map_cons, splitNl, splitNl]
    by_cases h : c = 10
    · rw [if_pos ((lowerNat_small (by omega)).mpr h), if_pos h, ih]
      rfl
    · rw [if_neg (fun hc => h ((lowerNat_small (by omega)).mp hc)), if_neg h, ih]
      cases hs : splitNl rest <;> rfl

theorem stripCr_map (p : Str) :
    stripCr (p.map lowerNat) = (stripCr p).map lowerNat := by
  unfold stripCr
  rw [List.getLast?_map]
  cases hl : p.getLast? with
  | none => rfl
  | some x =>
    rw [Option.map_some']
    by_cases hx : x = 13
    · subst hx
      rw [show lowerNat 13 = 13 from rfl]
      exact (List.map_dropLast lowerNat p).symm
    · have hgx : lowerNat x ≠ 13 := fun hc => hx ((lowerNat_small (by omega)).mp hc)
      have e1 : (match some (lowerNat x) with
          | some 13 => (p.map lowerNat).dropLast
          | _ => p.map lowerNat) = p.map lowerNat := by
        split
        · rename_i heq
          first
          | exact absurd heq hgx
          | (injection heq with h2; exact absurd h2 hgx)
        · rfl
      have e2 : (match some x with
          | some 13 => p.dropLast
          | _ => p) = p := by
        split
        · rename_i heq
          first
          | exact absurd heq hx
          | (injection heq with h2; exact absurd h2 hx)
        · rfl
      rw [e1, e2]

theorem linesOf_map (s : Str) :
    linesOf (s.map lowerNat) = (linesOf s).map (List.map lowerNat) := by
  unfold linesOf
  dsimp only
  rw [splitNl_map, List.map_append, List.getLast?_map, ← List.map_dropLast,
    List.map_map, List.map_map]
  congr 1
  · exact List.map_congr_left (fun p _ => stripCr_map p)
  · cases hps : (splitNl s).getLast? with
    | none => rfl
    | some q => cases q <;> rfl

theorem hostOfChars_eq_spec (content : Str) :
    hostOfChars content = specHostValue content := by
  unfold hostOfChars hostValue specHostValue
  rw [linesOf_map, List.map_map]
  have hcomp : (trimStart ∘ List.map lowerNat) = (fun l => (trimStart l).map lowerNat) := by
    funext l
    exact trimStart_map l
  rw [hcomp, List.find?_map, Option.map_map]
  rfl

theorem lowerNat_idem (c : Nat) : lowerNat (lowerNat c) = lowerNat c := by
  unfold lowerNat
  split <;> rename_i h
  · rw [if_neg]
    simp only [Bool.and_eq_true, decide_eq_true_eq] at h ⊢
    omega
  · rfl

theorem map_lower_self {l : Str} (hf : ∀ x ∈ l, lowerNat x = x) :
    l.map lowerNat = l := by
  induction l with
  | nil => rfl
  | cons a t ih =>
    rw [List.map_cons, hf a (List.mem_cons_self a t),
      ih (fun x hx => hf x (List.mem_cons_of_mem a hx))]

theorem mem_splitNl {s p : Str} {x : Nat} (hp : p ∈ splitNl s) (hx : x ∈ p) :
    x ∈ s := by
  induction s generalizing p with
  | nil =>
    rw [show splitNl [] = [[]] from rfl] at hp
    simp at hp
    subst hp
    simp at hx
  | cons c rest ih =>
    rw [splitNl] at hp
    by_cases hc : c = 10
    · rw [if_pos hc] at hp
      rcases List.mem_cons.mp hp with h | h
      · subst h
        simp at hx
      · exact List.mem_cons_of_mem c (ih h hx)
    · rw [if_neg hc] at hp
      cases hq : splitNl rest with
      | nil =>
        rw [hq] at hp
        simp at hp
        subst hp
        simp at hx
        rw [hx]
        exact List.mem_cons_self c rest
      | cons q qs =>
        rw [hq] at hp
        rcases List.mem_cons.mp hp with h | h
        · subst h
          rcases List.mem_cons.mp hx with h2 | h2
          · rw [h2]
            exact List.mem_cons_self c rest
          · exact List.mem_cons_of_mem c
              (ih (by rw [hq]; exact List.mem_cons_self q qs) h2)
        · exact List.mem_cons_of_mem c
            (ih (by rw [hq]; exact List.mem_cons_of_mem q h) hx)

theorem mem_stripCr {p : Str} {x : Nat} (hx : x ∈ stripCr p) : x ∈ p := by
  unfold stripCr at hx
  split at hx
  · exact List.Sublist.subset (List.dropLast_sublist p) hx
  · exact hx

theorem mem_linesOf {s l : Str} (hl : l ∈ linesOf s) {x : Nat} (hx : x ∈ l) :
    x ∈ s := by
  unfold linesOf at hl
  dsimp only at hl
  rcases List.mem_append.mp hl with h | h
  · rcases List.mem_map.mp h with ⟨p, hp, rfl⟩
    exact mem_splitNl (List.Sublist.subset (List.dropLast_sublist _) hp)
      (mem_stripCr hx)
  · revert h
    cases hq : (splitNl s).getLast? with
    | none =>
      intro h
      simp at h
    | some q =>
      cases q with
      | nil =>
        intro h
        simp at h
      | cons a as =>
        intro h
        simp only [List.mem_singleton] at h
        subst h
        exact mem_splitNl (List.mem_of_getLast?_eq_some hq) hx

theorem mem_trim {s : Str} {x : Nat} (hx : x ∈ trim s) : x ∈ s := by
  unfold trim trimEnd trimStart at hx
  rw [List.mem_reverse] at hx
  have h1 := List.Sublist.subset (List.dropWhile_sublist _) hx
  rw [List.mem_reverse] at h1
  exact List.Sublist.subset (List.dropWhile_sublist _) h1

theorem hostValue_lower {content h : Str}
    (hv : hostValue (content.map lowerNat) = some h) : h.map lowerNat = h := by
  unfold hostValue at hv
  rw [Option.map_eq_some'] at hv
  obtain ⟨s, hs, rfl⟩ := hv
  rcases List.mem_map.mp (List.mem_of_find?_eq_some hs) with ⟨l, hlmem, rfl⟩
  apply map_lower_self
  intro x hx
  have hx1 : x ∈ trimStart l :=
    List.drop_subset _ _ (mem_trim hx)
  have hx2 : x ∈ l := List.Sublist.subset (List.dropWhile_sublist _) hx1
  have hx3 : x ∈ content.map lowerNat := mem_linesOf hlmem hx2
  rcases List.mem_map.mp hx3 with ⟨y, _, rfl⟩
  exact lowerNat_idem y

theorem hostOfBytes_lower {data h : Str} (hh : hostOfBytes data = .ok h) :
    h.map lowerNat = h := by
  unfold hostOfBytes at hh
  split at hh
  · exact absurd hh (by simp)
  · rename_i content hdec
    revert hh
    unfold hostOfChars
    cases hv : hostValue (content.map lowerNat) with
    | none => intro hh; exact absurd hh (by simp)
    | some v =>
      intro hh
      simp only [Except.ok.injEq] at hh
      subst hh
      exact hostValue_lower hv

theorem hostOfChars_lower_invariant (s : Str) :
    hostOfChars (s.map lowerNat) = hostOfChars s := by
  unfold hostOfChars
  rw [List.map_map, show (lowerNat ∘ lowerNat) = lowerNat from funext lowerNat_idem]

/-- C1 (amended): the routing decision lowercases the parsed Host value
and then tests exact membership in the configured host set: membership
of the lowercased value yields PROXY (the configured upstream address,
no resolver call, cache untouched), non-membership yields DIRECT through
the Address Resolver.  Case-insensitivity holds on the header side only:
lowercasing the request head does not change the parsed value, and the
parsed value is always already lowercase, so a configured entry
containing an uppercase letter is never matched. -/
theorem routing_decision_amended (app : App) (sys : SysResolver)
    (cache : DnsCache) (data h : Str) (hh : hostOfBytes data = .ok h) :
    (h ∈ app.hosts → Connection.resolve app sys cache data = (.ok app.proxy, cache, false))
    ∧ (h ∉ app.hosts → Connection.resolve app sys cache data = Dns.resolve sys cache h)
    ∧ (∀ s, hostOfChars (s.map lowerNat) = hostOfChars s)
    ∧ h.map lowerNat = h := by
  refine ⟨?_, ?_, hostOfChars_lower_invariant, hostOfBytes_lower hh⟩
  · intro hm
    unfold Connection.resolve
    rw [hh]
    have hc : app.hosts.contains h = true := List.elem_iff.mpr hm
    simp only [hc, if_true]
  · intro hm
    unfold Connection.resolve
    rw [hh]
    have hc : app.hosts.contains h = false := by
      rcases hcc : app.hosts.contains h with _ | _
      · rfl
      · exact absurd (List.elem_iff.mp hcc) hm
    simp only [hc, Bool.false_eq_true, if_false]

/-- C1 counterexample: with the single configured host "A" (an uppercase
letter), a request whose Host header is exactly "A" — a letter-case
variation of a configured hostname — is NOT routed to the configured
upstream proxy: the parsed value is lowercased to "a", fails the exact
membership test, and the DIRECT path is taken. -/
theorem routing_decision_case_cex :
    (strBytes "A") ∈ (App.mk 0 [strBytes "A"]).hosts
    ∧ hostOfBytes (strBytes "GET x\nhost: A") = .ok (strBytes "a")
    ∧ (Connection.resolve (App.mk 0 [strBytes "A"]) oneAddrSys []
        (strBytes "GET x\nhost: A")).1 ≠ .ok (App.mk 0 [strBytes "A"]).proxy := by
  refine ⟨by decide, by decide, by decide⟩

theorem routing_decision_witness :
    Connection.resolve (App.mk 0 [strBytes "example.com"]) oneAddrSys []
        (strBytes "GET /\nHost: EXAMPLE.com") = (.ok 0, [], false) :=
  (routing_decision_amended (App.mk 0 [strBytes "example.com"]) oneAddrSys []
      (strBytes "GET /\nHost: EXAMPLE.com") (strBytes "example.com")
      (by decide)).1 (by decide)

/-- C8: the Host-header extraction of Connection::resolve returns the
value of the first line that, after trimming leading whitespace and
lowercasing, begins with "host:" (value whitespace-trimmed); and when a
request head that passes the GET check contains no such line, the Init
step fails with ParseError, leaving the connection unchanged (in
particular no upstream connect is attempted: the upstream socket stays
absent). -/
theorem host_header_parsing (app : App) (sys : SysResolver) (io : NetOracle)
    (cache : DnsCache) (srv : Option SockAddr) (data content : Str)
    (h1 : check_http data = true) (h2 : utf8Decode data = some content)
    (h3 : hostOfChars content = none) :
    (∀ c, hostOfChars c = specHostValue c)
    ∧ initStep app sys { io with clientPeek := .ok data } ⟨State.init, srv⟩ cache
        = (.error .parseError, ⟨State.init, srv⟩, cache) := by
  refine ⟨hostOfChars_eq_spec, ?_⟩
  simp only [initStep, Connection.resolve, hostOfBytes, h1, h2, h3, Bool.not_true,
    Bool.false_eq_true, if_false]

theorem host_header_parsing_witness :
    initStep (App.mk 0 []) oneAddrSys
        { okOracle with clientPeek := .ok (strBytes "GETX") }
        ⟨State.init, none⟩ [] = (.error .parseError, ⟨State.init, none⟩, []) :=
  (host_header_parsing (App.mk 0 []) oneAddrSys okOracle [] none
      (strBytes "GETX") (strBytes "GETX") (by decide) (by decide) (by decide)).2

/-- C10: a peeked request head that passes the GET check but is not
valid UTF-8 makes the Init step fail with ParseError (the Utf8Error is
converted by the From impl of src/error.rs lines 125-129), and the
connection is unchanged: no upstream connect is attempted. -/
theorem utf8_error_parse (app : App) (sys : SysResolver) (io : NetOracle)
    (cache : DnsCache) (srv : Option SockAddr) (data : Str)
    (h1 : check_http data = true) (h2 : utf8Decode data = none) :
    initStep app sys { io with clientPeek := .ok data } ⟨State.init, srv⟩ cache
      = (.error .parseError, ⟨State.init, srv⟩, cache) := by
  simp only [initStep, Connection.resolve, hostOfBytes, h1, h2, Bool.not_true,
    Bool.false_eq_true, if_false]

theorem utf8_error_parse_witness :
    initStep (App.mk 0 []) oneAddrSys
        { okOracle with clientPeek := .ok [71, 69, 84, 32, 255] }
        ⟨State.init, none⟩ [] = (.error .parseError, ⟨State.init, none⟩, []) :=
  utf8_error_parse (App.mk 0 []) oneAddrSys okOracle [] none [71, 69, 84, 32, 255]
    (by decide) (by decide)

theorem hostOfBytes_error (data : Str) (e : ConnError)
    (h : hostOfBytes data = .error e) : e = .parseError := by
  unfold hostOfBytes at h
  cases hd : utf8Decode data with
  | none =>
    rw [hd] at h
    dsimp only at h
    simp only [Except.error.injEq] at h
    exact h.symm
  | some content =>
    rw [hd] at h
    dsimp only at h
    cases hv : hostOfChars content with
    | none =>
      rw [hv] at h
      dsimp only at h
      simp only [Except.error.injEq] at h
      exact h.symm
    | some host =>
      rw [hv] at h
      exact absurd h (by simp)

theorem dnsResolve_error (sys : SysResolver) (cache : DnsCache) (host : Str)
    (e : ConnError) (h : (Dns.resolve sys cache host).1 = .error e) :
    e = .dnsError := by
  unfold Dns.resolve at h
  cases hc : cache.lookup host with
  | some v =>
    rw [hc] at h
    simp at h
  | none =>
    rw [hc] at h
    cases hs : sys (portQuery host) with
    | none =>
      rw [hs] at h
      dsimp only at h
      simp only [Except.error.injEq] at h
      exact h.symm
    | some rs =>
      rw [hs] at h
      cases rs with
      | nil =>
        dsimp only at h
        simp only [Except.error.injEq] at h
        exact h.symm
      | cons a t => simp at h

theorem resolve_error_kind (app : App) (sys : SysResolver) (cache : DnsCache)
    (data : Str) (e : ConnError)
    (h : (Connection.resolve app sys cache data).1 = .error e) :
    e = .parseError ∨ e = .dnsError := by
  unfold Connection.resolve at h
  cases hh : hostOfBytes data with
  | error e2 =>
    rw [hh] at h
    dsimp only at h
    simp only [Except.error.injEq] at h
    subst h
    exact Or.inl (hostOfBytes_error data e2 hh)
  | ok host =>
    rw [hh] at h
    dsimp only at h
    rcases hcc : app.hosts.contains host with _ | _
    · rw [hcc] at h
      simp only [Bool.false_eq_true, if_false] at h
      exact Or.inr (dnsResolve_error sys cache host e h)
    · rw [hcc] at h
      simp at h

/-- C3 (amended): the Init step fails with NotHttp exactly on a
successful peek whose data fails check_http, which demands data strictly
longer than the three GET bytes beginning with them: peeked data of
exactly "GET" — although it begins with the full GET prefix — and a
successful zero-byte peek also fail with NotHttp; a failing peek of any
kind stays in Init reporting would-block; a NotHttp failure leaves the
connection unchanged, so no upstream connect is attempted and the
upstream socket stays absent. -/
theorem init_nothttp_amended (app : App) (sys : SysResolver) (io : NetOracle)
    (cache : DnsCache) (srv : Option SockAddr) (data : Str) (e : ErrorKind) :
    (check_http data = false →
      initStep app sys { io with clientPeek := .ok data } ⟨State.init, srv⟩ cache
        = (.error .notHttp, ⟨State.init, srv⟩, cache))
    ∧ (check_http data = true →
      (initStep app sys { io with clientPeek := .ok data } ⟨State.init, srv⟩ cache).1
        ≠ .error .notHttp)
    ∧ (initStep app sys { io with clientPeek := .error e } ⟨State.init, srv⟩ cache
        = (.ok false, ⟨State.init, srv⟩, cache))
    ∧ check_http GETbytes = false
    ∧ check_http [] = false := by
  refine ⟨?_, ?_, rfl, by decide, by decide⟩
  · intro h
    simp only [initStep, h, Bool.not_false, if_true]
  · intro h
    unfold initStep
    dsimp only
    rw [h]
    simp only [Bool.not_true, Bool.false_eq_true, if_false]
    rcases hr : Connection.resolve app sys cache data with ⟨r, cache2, called⟩
    cases r with
    | error e2 =>
      dsimp only
      intro hcon
      simp only [Except.error.injEq] at hcon
      subst hcon
      rcases resolve_error_kind app sys cache data ConnError.notHttp
          (by rw [hr]) with h1 | h1 <;> exact absurd h1 (by decide)
    | ok addr =>
      dsimp only
      cases io.connectRes <;> simp

/-- C3 counterexample: a successful peek of exactly the three bytes
"GET" begins with the full GET prefix, yet the Init step fails with
NotHttp (check_http requires strictly more than three bytes). -/
theorem init_nothttp_cex :
    startsWithStr GETbytes (strBytes "GET") = true
    ∧ initStep (App.mk 0 []) oneAddrSys
        { okOracle with clientPeek := .ok (strBytes "GET") } ⟨State.init, none⟩ []
        = (.error .notHttp, ⟨State.init, none⟩, []) :=
  ⟨by decide, by decide⟩

theorem init_nothttp_witness :
    initStep (App.mk 0 []) oneAddrSys
        { okOracle with clientPeek := .ok (strBytes "GE") } ⟨State.init, none⟩ []
        = (.error .notHttp, ⟨State.init, none⟩, []) :=
  (init_nothttp_amended (App.mk 0 []) oneAddrSys okOracle [] none (strBytes "GE")
      ErrorKind.wouldBlock).1 (by decide)

/-- C2 (amended): read and peek failures never terminate a connection
with an I/O error: in Init a failed client peek of ANY kind, in Send a
failed client read of ANY kind, and in Recv a failed upstream read of
ANY kind are all reported as would-block, the handler staying in its
state; in Recv a client-peek failure of a kind other than would-block
silently finishes the connection (state Done, no error).  I/O errors
terminate a connection only from write failures (and the Conn-state
peer-address/nodelay checks). -/
theorem io_error_amended (app : App) (sys : SysResolver) (io : NetOracle)
    (cache : DnsCache) (srv : Option SockAddr) (a : SockAddr)
    (e e2 e3 : ErrorKind) (h : e2 ≠ .wouldBlock) :
    (initStep app sys { io with clientPeek := .error e } ⟨State.init, srv⟩ cache
        = (.ok false, ⟨State.init, srv⟩, cache))
    ∧ (sendStep { io with clientRead := .error e } ⟨State.send, srv⟩
        = (.ok false, ⟨State.send, srv⟩))
    ∧ (recvStep { io with clientPeek1 := .ok 1, serverRead := .error e }
          ⟨State.recv, some a⟩
        = (.ok false, ⟨State.recv, some a⟩, []))
    ∧ (recvStep { io with clientPeek1 := .error e2 } ⟨State.recv, some a⟩
        = (.ok true, ⟨State.done, some a⟩, []))
    ∧ (sendStep { io with clientRead := .ok [1], serverWrite := .error e3 }
          ⟨State.send, some a⟩
        = (.error (.ioError e3), ⟨State.send, some a⟩)) := by
  refine ⟨rfl, rfl, rfl, ?_, rfl⟩
  have hb : (e2 == ErrorKind.wouldBlock) = false := beq_eq_false_iff_ne.mpr h
  simp [recvStep, hb]

/-- C2 counterexample: in Init, a client peek failing with
ConnectionReset — an error other than would-block — does NOT terminate
the connection with an I/O error: the handler reports would-block and
stays in Init. -/
theorem io_error_cex :
    initStep (App.mk 0 []) oneAddrSys
        { okOracle with clientPeek := .error .connectionReset }
        ⟨State.init, none⟩ [] = (.ok false, ⟨State.init, none⟩, [])
    ∧ (initStep (App.mk 0 []) oneAddrSys
        { okOracle with clientPeek := .error .connectionReset }
        ⟨State.init, none⟩ []).1 ≠ .error (.ioError .connectionReset) :=
  ⟨rfl, by decide⟩

theorem io_error_witness :
    recvStep { okOracle with clientPeek1 := .error .connectionReset }
        ⟨State.recv, some 0⟩ = (.ok true, ⟨State.done, some 0⟩, []) :=
  (io_error_amended (App.mk 0 []) oneAddrSys okOracle [] none 0 .wouldBlock
      .connectionReset .wouldBlock (by decide)).2.2.2.1

/-- C9: in state Recv, a one-byte client peek reporting zero bytes or
failing with a kind other than would-block moves the state to Done
(independently of every other oracle outcome, so in particular without
reading from upstream); otherwise an upstream read of zero bytes moves
to Done; otherwise with a successful write all bytes read from upstream
are written in full to the client and the state remains Recv. -/
theorem recv_semantics (io : NetOracle) (a : SockAddr) (e : ErrorKind)
    (bs : Str) (n : Nat) (h1 : e ≠ .wouldBlock) (h2 : bs ≠ []) :
    (recvStep { io with clientPeek1 := .ok 0 } ⟨State.recv, some a⟩
        = (.ok true, ⟨State.done, some a⟩, []))
    ∧ (recvStep { io with clientPeek1 := .error e } ⟨State.recv, some a⟩
        = (.ok true, ⟨State.done, some a⟩, []))
    ∧ (recvStep { io with clientPeek1 := .ok (n + 1), serverRead := .ok [] }
          ⟨State.recv, some a⟩
        = (.ok true, ⟨State.done, some a⟩, []))
    ∧ (recvStep
        { io with clientPeek1 := .ok (n + 1), serverRead := .ok bs, clientWrite := .ok () }
        ⟨State.recv, some a⟩
        = (.ok true, ⟨State.recv, some a⟩, bs)) := by
  refine ⟨rfl, ?_, rfl, ?_⟩
  · have hb : (e == ErrorKind.wouldBlock) = false := beq_eq_false_iff_ne.mpr h1
    simp [recvStep, hb]
  · have hl : bs.length ≠ 0 := fun hc => h2 (List.length_eq_zero.mp hc)
    simp [recvStep, hl]

theorem recv_semantics_witness :
    recvStep { okOracle with clientPeek1 := .ok 0 } ⟨State.recv, some 0⟩
      = (.ok true, ⟨State.done, some 0⟩, [])
    ∧ recvStep
        { okOracle with clientPeek1 := .ok 1, serverRead := .ok [9], clientWrite := .ok () }
        ⟨State.recv, some 0⟩
      = (.ok true, ⟨State.recv, some 0⟩, [9]) := by
  have h := recv_semantics okOracle 0 .connectionReset [9] 0 (by decide) (by decide)
  exact ⟨h.1, h.2.2.2⟩

theorem stepConn_state (app : App) (sys : SysResolver) (io : NetOracle)
    (c : Conn) (cache : DnsCache) :
    (stepConn app sys io c cache).2.1.state = c.state
    ∨ (stepConn app sys io c cache).2.1.state = nextState c.state := by
  rcases c with ⟨st, srv⟩
  cases st
  · unfold stepConn initStep
    dsimp only
    split
    · exact Or.inl rfl
    · split
      · exact Or.inl rfl
      · split
        · exact Or.inl rfl
        · split
          · exact Or.inl rfl
          · exact Or.inr rfl
  · unfold stepConn connStep
    dsimp only
    split
    · exact Or.inl rfl
    · split
      · split
        · exact Or.inl rfl
        · exact Or.inl rfl
      · split
        · split
          · exact Or.inl rfl
          · exact Or.inl rfl
        · exact Or.inr rfl
  · unfold stepConn sendStep
    dsimp only
    split
    · exact Or.inl rfl
    · split
      · exact Or.inr rfl
      · split
        · exact Or.inl rfl
        · split
          · exact Or.inl rfl
          · split
            · exact Or.inr rfl
            · exact Or.inl rfl
  · unfold stepConn recvStep
    dsimp only
    split
    · exact Or.inl rfl
    · split
      · exact Or.inr rfl
      · split
        · exact Or.inl rfl
        · split
          · exact Or.inr rfl
          · split
            · exact Or.inl rfl
            · exact Or.inl rfl
  · exact Or.inl rfl

theorem stepConn_rank_le (app : App) (sys : SysResolver) (io : NetOracle)
    (c : Conn) (cache : DnsCache) :
    rank c.state ≤ rank (stepConn app sys io c cache).2.1.state := by
  rcases stepConn_state app sys io c cache with h | h <;> rw [h]
  rcases c with ⟨st, srv⟩
  cases st <;> simp [rank, nextState]

theorem runSteps_rank_le (app : App) (sys : SysResolver) (ios : List NetOracle) :
    ∀ p : Conn × DnsCache,
      rank p.1.state ≤ rank (runSteps app sys ios p).1.state := by
  induction ios with
  | nil => exact fun p => Nat.le_refl _
  | cons io rest ih =>
    intro p
    exact Nat.le_trans (stepConn_rank_le app sys io p.1 p.2) (ih _)

/-- C4: every single state-machine step either keeps the state or moves
it to the immediate successor in the fixed order Init, Conn, Send, Recv,
Done (the successor function raises the rank by exactly one, capped at
Done), a step taken in Done leaves the connection unchanged, a step
taken in Recv never moves the state to Send, and along every sequence of
steps the rank never decreases. -/
theorem state_machine_monotone (app : App) (sys : SysResolver) (io : NetOracle)
    (c : Conn) (cache : DnsCache) (srv : Option SockAddr) (ios : List NetOracle) :
    ((stepConn app sys io c cache).2.1.state = c.state
      ∨ (stepConn app sys io c cache).2.1.state = nextState c.state)
    ∧ (∀ s, rank (nextState s) = min (rank s + 1) 4)
    ∧ (stepConn app sys io ⟨State.done, srv⟩ cache
        = (.ok true, ⟨State.done, srv⟩, cache))
    ∧ ((stepConn app sys io ⟨State.recv, srv⟩ cache).2.1.state ≠ State.send)
    ∧ rank c.state ≤ rank (runSteps app sys ios (c, cache)).1.state := by
  refine ⟨stepConn_state app sys io c cache, ?_, rfl, ?_,
    runSteps_rank_le app sys ios (c, cache)⟩
  · intro s
    cases s <;> rfl
  · rcases stepConn_state app sys io ⟨State.recv, srv⟩ cache with h | h <;>
      rw [h] <;> simp [nextState]

theorem state_machine_monotone_witness :
    stepConn (App.mk 0 []) oneAddrSys okOracle ⟨State.done, none⟩ []
      = (.ok true, ⟨State.done, none⟩, []) :=
  (state_machine_monotone (App.mk 0 []) oneAddrSys okOracle ⟨State.done, none⟩ []
      none []).2.2.1

theorem dnsResolve_hit (sys : SysResolver) (cache : DnsCache) (host : Str)
    (a : SockAddr) (h : cache.lookup host = some a) :
    Dns.resolve sys cache host = (.ok a, cache, false) := by
  unfold Dns.resolve
  rw [h]

theorem dnsResolve_ok_lookup (sys : SysResolver) (cache : DnsCache) (host : Str)
    (a : SockAddr) (h : (Dns.resolve sys cache host).1 = .ok a) :
    ((Dns.resolve sys cache host).2.1).lookup host = some a := by
  cases hc : cache.lookup host with
  | some v =>
    have hres := dnsResolve_hit sys cache host v hc
    rw [hres] at h ⊢
    simp only [Except.ok.injEq] at h
    subst h
    exact hc
  | none =>
    cases hs : sys (portQuery host) with
    | none =>
      have hres : Dns.resolve sys cache host = (.error .dnsError, cache, true) := by
        unfold Dns.resolve
        rw [hc, hs]
      rw [hres] at h
      simp at h
    | some rs =>
      cases rs with
      | nil =>
        have hres : Dns.resolve sys cache host = (.error .dnsError, cache, true) := by
          unfold Dns.resolve
          rw [hc, hs]
        rw [hres] at h
        simp at h
      | cons addr t =>
        have hres : Dns.resolve sys cache host
            = (.ok addr, (host, addr) :: cache, true) := by
          unfold Dns.resolve
          rw [hc, hs]
        rw [hres] at h ⊢
        simp only [Except.ok.injEq] at h
        subst h
        simp [List.lookup]

/-- C5: once Dns::resolve has returned an address successfully, the key
maps to that address in the cache, so every later resolve of the same
key returns the same address from the cache without invoking system
resolution (the third component is false) and leaves the cache as it is;
and a resolve that fails inserts nothing into the cache. -/
theorem dns_memoization (sys : SysResolver) (cache : DnsCache) (host : Str)
    (a : SockAddr) (h : (Dns.resolve sys cache host).1 = .ok a) :
    Dns.resolve sys (Dns.resolve sys cache host).2.1 host
      = (.ok a, (Dns.resolve sys cache host).2.1, false)
    ∧ ∀ (cache2 : DnsCache) (e : ConnError),
        (Dns.resolve sys cache2 host).1 = .error e →
        (Dns.resolve sys cache2 host).2.1 = cache2 := by
  refine ⟨dnsResolve_hit sys _ host a (dnsResolve_ok_lookup sys cache host a h), ?_⟩
  intro cache2 e he
  cases hc : cache2.lookup host with
  | some v =>
    rw [dnsResolve_hit sys cache2 host v hc] at he
    simp at he
  | none =>
    cases hs : sys (portQuery host) with
    | none =>
      have hres : Dns.resolve sys cache2 host = (.error .dnsError, cache2, true) := by
        unfold Dns.resolve
        rw [hc, hs]
      rw [hres]
    | some rs =>
      cases rs with
      | nil =>
        have hres : Dns.resolve sys cache2 host = (.error .dnsError, cache2, true) := by
          unfold Dns.resolve
          rw [hc, hs]
        rw [hres]
      | cons addr t =>
        have hres : Dns.resolve sys cache2 host
            = (.ok addr, (host, addr) :: cache2, true) := by
          unfold Dns.resolve
          rw [hc, hs]
        rw [hres] at he
        simp at he

theorem dns_memoization_witness :
    (Dns.resolve oneAddrSys [] (strBytes "h")).1 = .ok 5
    ∧ Dns.resolve oneAddrSys (Dns.resolve oneAddrSys [] (strBytes "h")).2.1 (strBytes "h")
      = (.ok 5, (Dns.resolve oneAddrSys [] (strBytes "h")).2.1, false) :=
  ⟨by decide, (dns_memoization oneAddrSys [] (strBytes "h") 5 (by decide)).1⟩

theorem startsWithStr_iff (p : Str) : ∀ l : Str,
    (startsWithStr p l = true ↔ ∃ suf, l = p ++ suf) := by
  induction p with
  | nil =>
    intro l
    constructor
    · intro _
      exact ⟨l, rfl⟩
    · intro _
      rfl
  | cons x xs ih =>
    intro l
    cases l with
    | nil =>
      constructor
      · intro hc
        exact absurd hc (by simp [startsWithStr])
      · rintro ⟨suf, hsuf⟩
        exact absurd hsuf (by simp)
    | cons c cs =>
      rw [show startsWithStr (x :: xs) (c :: cs)
          = (decide (x = c) && startsWithStr xs cs) from rfl]
      simp only [Bool.and_eq_true, decide_eq_true_eq, ih cs]
      constructor
      · rintro ⟨rfl, suf, rfl⟩
        exact ⟨suf, rfl⟩
      · rintro ⟨suf, hsuf⟩
        rw [List.cons_append] at hsuf
        injection hsuf with h1 h2
        exact ⟨h1.symm, suf, h2⟩

theorem hasSub_iff (p : Str) : ∀ l : Str,
    (hasSub p l = true ↔ ∃ pre suf, l = pre ++ p ++ suf) := by
  intro l
  induction l with
  | nil =>
    rw [show hasSub p [] = startsWithStr p [] from rfl, startsWithStr_iff]
    constructor
    · rintro ⟨suf, hs⟩
      exact ⟨[], suf, by simpa using hs⟩
    · rintro ⟨pre, suf, hs⟩
      have h2 : (pre ++ p) ++ suf = [] := hs.symm
      rw [List.append_eq_nil] at h2
      obtain ⟨h3, hsuf⟩ := h2
      rw [List.append_eq_nil] at h3
      obtain ⟨hpre, hp⟩ := h3
      exact ⟨[], by rw [hp]; rfl⟩
  | cons c cs ih =>
    rw [show hasSub p (c :: cs) = (startsWithStr p (c :: cs) || hasSub p cs) from rfl]
    simp only [Bool.or_eq_true, startsWithStr_iff, ih]
    constructor
    · rintro (⟨suf, hs⟩ | ⟨pre, suf, hs⟩)
      · exact ⟨[], suf, by simpa using hs⟩
      · exact ⟨c :: pre, suf, by rw [hs]; rfl⟩
    · rintro ⟨pre, suf, hs⟩
      cases pre with
      | nil =>
        exact Or.inl ⟨suf, by simpa using hs⟩
      | cons x xs =>
        right
        rw [List.cons_append, List.cons_append] at hs
        injection hs with h1 h2
        subst h1
        exact ⟨xs, suf, h2⟩

/-- C7: the resolver query built from the Host value passes the value
through unchanged exactly when a port suffix is present — a colon
anywhere in a value that does not start with an opening bracket, or a
closing-bracket-colon pair in a value that does — and otherwise pairs
the value with default port 80 (in particular a bracketed IPv6 literal
with no closing-bracket-colon pair gets port 80). -/
theorem port_detection (h : Str) :
    (specPortCond h → portQuery h = (h, none))
    ∧ (¬specPortCond h → portQuery h = (h, some 80)) := by
  have hb : (((h.head? == some 91) && hasSub (strBytes "]:") h)
      || (!(h.head? == some 91) && h.contains 58)) = true ↔ specPortCond h := by
    unfold specPortCond
    simp only [Bool.or_eq_true, Bool.and_eq_true, beq_iff_eq, Bool.not_eq_true',
      beq_eq_false_iff_ne, hasSub_iff, List.elem_iff]
  constructor
  · intro hs
    unfold portQuery
    dsimp only
    rw [if_pos (hb.mpr hs)]
  · intro hs
    unfold portQuery
    dsimp only
    rw [if_neg (fun hc => hs (hb.mp hc))]

theorem port_detection_witness :
    portQuery (strBytes "[::1]:8080") = (strBytes "[::1]:8080", none) :=
  (port_detection (strBytes "[::1]:8080")).1
    (Or.inl ⟨by decide, strBytes "[::1", strBytes "8080", by decide⟩)
